import Mathlib

/-!
Verification of the `finitediff` finite-differentiation library.

Numbers are modelled by `ℚ` (exact arithmetic); `Vec<f64>` becomes `List ℚ`
and `Vec<Vec<f64>>` becomes `List (List ℚ)`.  The functions of
`src/utils.rs` and the constant `EPS_F64` of `src/lib.rs` are translated
directly from the source.  The differencing routines themselves
(`diff.rs`, `jacobian.rs`, `hessian.rs`, `pert.rs`) are not part of the
source tree, only their trait declarations and tests are; those routines
are modelled from the specification, as marked in their doc comments.
-/

namespace Finitediff

/-- Entry read `mat[i][j]` on a matrix, with default `d` out of bounds. -/
def ent {α : Type} (d : α) (m : List (List α)) (i j : ℕ) : α :=
  (m.getD i []).getD j d

/-- Entry write `mat[i][j] = v`; a no-op out of bounds (Rust would panic). -/
def setEnt {α : Type} (m : List (List α)) (i j : ℕ) (v : α) : List (List α) :=
  m.set i ((m.getD i []).set j v)

/-- Row length `mat[i].len()`. -/
def rowLen {α : Type} (m : List (List α)) (i : ℕ) : ℕ := (m.getD i []).length

/-- A square matrix: every row as long as the matrix is high. -/
def SquareMat {α : Type} (m : List (List α)) : Prop :=
  ∀ r ∈ m, r.length = m.length

/-- Translation of `mod_and_calc_vec_f64` (src/utils.rs lines 9-15).
The Rust function mutates `x[idx]`, calls `f`, restores `x[idx]` and
returns `f`'s result; the state threading is made explicit, the pair
holds `f`'s result and the final state of the vector `x`. -/
def mod_and_calc_vec_f64 {α : Type} (x : List ℚ) (f : List ℚ → α)
    (idx : ℕ) (y : ℚ) : α × List ℚ :=
  let xtmp := x.getD idx 0
  let x1 := x.set idx (xtmp + y)
  let fx1 := f x1
  (fx1, x1.set idx xtmp)

/-- Translation of `mod_and_calc_vec_f64` when the callable can fail
(a Rust panic inside `f` unwinds past line 13 of src/utils.rs, so the
restoring store `x[idx] = xtmp` is never executed).  The pair holds the
propagated outcome and the state of `x` observable at the call boundary. -/
def mod_and_calc_vec_f64_fallible {ε α : Type} (x : List ℚ)
    (f : List ℚ → Except ε α) (idx : ℕ) (y : ℚ) : Except ε α × List ℚ :=
  let xtmp := x.getD idx 0
  let x1 := x.set idx (xtmp + y)
  match f x1 with
  | Except.ok fx1 => (Except.ok fx1, x1.set idx xtmp)
  | Except.error e => (Except.error e, x1)

lemma getD_set_self {α : Type} (x : List α) (i : ℕ) (v d : α) (h : i < x.length) :
    (x.set i v).getD i d = v := by
  rw [List.getD_eq_getElem?_getD, List.getElem?_set_self (by simpa using h)]
  rfl

lemma getD_set_ne {α : Type} (x : List α) {i j : ℕ} (v d : α) (h : i ≠ j) :
    (x.set i v).getD j d = x.getD j d := by
  rw [List.getD_eq_getElem?_getD, List.getElem?_set_ne h, ← List.getD_eq_getElem?_getD]

lemma length_getD_set {α : Type} (x : List α) (i : ℕ) (v : α) :
    (x.set i v).length = x.length := List.length_set x i v

lemma set_getD_self (x : List ℚ) (idx : ℕ) (h : idx < x.length) :
    x.set idx (x.getD idx 0) = x := by
  induction x generalizing idx with
  | nil => simp at h
  | cons a t ih =>
    cases idx with
    | zero => simp [List.set]
    | succ k =>
        simp only [List.set, List.getD, List.getElem?_cons_succ]
        have hk : k < t.length := by simpa using h
        have := ih k hk
        simpa [List.getD] using this

lemma set_set_restore (x : List ℚ) (idx : ℕ) (v : ℚ) (h : idx < x.length) :
    (x.set idx v).set idx (x.getD idx 0) = x := by
  rw [List.set_set]
  exact set_getD_self x idx h

/-! ### Matrix symmetrization (src/utils.rs lines 33-42)

The body of the double loop of `restore_symmetry_vec_f64`, generic in the
entry type and in the averaging operation so that the loop structure can
be studied independently of the arithmetic; the `f64` function is the
instance at `fun a b => (a + b) / 2` over `ℚ`. -/

/-- One iteration of the inner loop of `restore_symmetry_vec_f64`:
`t = avg(mat[i][j], mat[j][i]); mat[i][j] = t; mat[j][i] = t`. -/
def symStep {α : Type} (avg : α → α → α) (d : α) (m : List (List α))
    (p : ℕ × ℕ) : List (List α) :=
  let t := avg (ent d m p.1 p.2) (ent d m p.2 p.1)
  setEnt (setEnt m p.1 p.2 t) p.2 p.1 t

/-- Folding `symStep` over an explicit list of index pairs. -/
def symFold {α : Type} (avg : α → α → α) (d : α) (P : List (ℕ × ℕ))
    (m : List (List α)) : List (List α) :=
  P.foldl (symStep avg d) m

/-- The double loop of `restore_symmetry_vec_f64`: `i` over `0..mat.len()`,
`j` over `(i+1)..mat[i].len()` (the inner bound read from the current
state, as in the source). -/
def restore_symmetry_gen {α : Type} (avg : α → α → α) (d : α)
    (mat : List (List α)) : List (List α) :=
  (List.range mat.length).foldl
    (fun m i =>
      (List.range' (i + 1) ((m.getD i []).length - (i + 1))).foldl
        (fun m2 j => symStep avg d m2 (i, j)) m)
    mat

/-- Translation of `restore_symmetry_vec_f64` (src/utils.rs lines 33-42):
the generic loop instantiated with the source's averaging
`t = (mat[i][j] + mat[j][i]) / 2.0` over exact arithmetic. -/
def restore_symmetry_vec_f64 (mat : List (List ℚ)) : List (List ℚ) :=
  restore_symmetry_gen (fun a b => (a + b) / 2) 0 mat

section MatrixLemmas

variable {α : Type} (d : α)

lemma length_setEnt (m : List (List α)) (i j : ℕ) (v : α) :
    (setEnt m i j v).length = m.length := List.length_set m i _

lemma rowLen_setEnt (m : List (List α)) (i j k : ℕ) (v : α) :
    rowLen (setEnt m i j v) k = rowLen m k := by
  unfold rowLen setEnt
  by_cases hk : i = k
  · subst hk
    by_cases hi : i < m.length
    · rw [getD_set_self _ _ _ _ hi, List.length_set]
    · rw [List.set_eq_of_length_le (Nat.le_of_not_lt hi)]
  · rw [getD_set_ne _ _ _ hk]

lemma ent_setEnt_self (m : List (List α)) (i j : ℕ) (v : α)
    (hi : i < m.length) (hj : j < rowLen m i) :
    ent d (setEnt m i j v) i j = v := by
  unfold ent setEnt
  rw [getD_set_self _ _ _ _ hi]
  exact getD_set_self _ _ _ _ hj

lemma ent_setEnt_ne (m : List (List α)) {i j a b : ℕ} (v : α)
    (h : (a, b) ≠ (i, j)) :
    ent d (setEnt m i j v) a b = ent d m a b := by
  unfold ent setEnt
  by_cases hai : i = a
  · subst hai
    have hbj : j ≠ b := by
      intro he; exact h (by rw [he])
    by_cases hi : i < m.length
    · rw [getD_set_self _ _ _ _ hi, getD_set_ne _ _ _ hbj]
    · rw [List.set_eq_of_length_le (Nat.le_of_not_lt hi)]
  · rw [getD_set_ne _ _ _ hai]

lemma length_symStep (avg : α → α → α) (m : List (List α)) (p : ℕ × ℕ) :
    (symStep avg d m p).length = m.length := by
  unfold symStep
  rw [length_setEnt, length_setEnt]

lemma rowLen_symStep (avg : α → α → α) (m : List (List α)) (p : ℕ × ℕ)
    (k : ℕ) : rowLen (symStep avg d m p) k = rowLen m k := by
  unfold symStep
  rw [rowLen_setEnt, rowLen_setEnt]

lemma ent_symStep_ne (avg : α → α → α) (m : List (List α)) {p : ℕ × ℕ}
    {a b : ℕ} (h1 : (a, b) ≠ (p.1, p.2)) (h2 : (a, b) ≠ (p.2, p.1)) :
    ent d (symStep avg d m p) a b = ent d m a b := by
  unfold symStep
  rw [ent_setEnt_ne _ _ _ h2, ent_setEnt_ne _ _ _ h1]

lemma ent_symStep_fst (avg : α → α → α) (m : List (List α)) {p : ℕ × ℕ}
    (hlt : p.1 < p.2) (h1 : p.1 < m.length) (h2 : p.2 < rowLen m p.1) :
    ent d (symStep avg d m p) p.1 p.2
      = avg (ent d m p.1 p.2) (ent d m p.2 p.1) := by
  unfold symStep
  rw [ent_setEnt_ne _ _ _ (by
        intro he
        exact absurd (congrArg Prod.fst he) (Nat.ne_of_lt hlt)),
      ent_setEnt_self _ _ _ _ _ h1 h2]

lemma ent_symStep_snd (avg : α → α → α) (m : List (List α)) {p : ℕ × ℕ}
    (h1 : p.2 < m.length) (h2 : p.1 < rowLen m p.2) :
    ent d (symStep avg d m p) p.2 p.1
      = avg (ent d m p.1 p.2) (ent d m p.2 p.1) := by
  unfold symStep
  rw [ent_setEnt_self _ _ _ _ _ (by rw [length_setEnt]; exact h1)
        (by rw [rowLen_setEnt]; exact h2)]

lemma length_symFold (avg : α → α → α) (P : List (ℕ × ℕ))
    (m : List (List α)) : (symFold avg d P m).length = m.length := by
  induction P generalizing m with
  | nil => rfl
  | cons q rest ih =>
      show (symFold avg d rest (symStep avg d m q)).length = m.length
      rw [ih, length_symStep]

lemma rowLen_symFold (avg : α → α → α) (P : List (ℕ × ℕ))
    (m : List (List α)) (k : ℕ) :
    rowLen (symFold avg d P m) k = rowLen m k := by
  induction P generalizing m with
  | nil => rfl
  | cons q rest ih =>
      show rowLen (symFold avg d rest (symStep avg d m q)) k = rowLen m k
      rw [ih, rowLen_symStep]

lemma ent_symFold_untouched (avg : α → α → α) (P : List (ℕ × ℕ))
    (m : List (List α)) {a b : ℕ}
    (h : ∀ p ∈ P, (a, b) ≠ (p.1, p.2) ∧ (a, b) ≠ (p.2, p.1)) :
    ent d (symFold avg d P m) a b = ent d m a b := by
  induction P generalizing m with
  | nil => rfl
  | cons q rest ih =>
      show ent d (symFold avg d rest (symStep avg d m q)) a b = ent d m a b
      rw [ih _ (fun p hp => h p (List.mem_cons_of_mem q hp)),
        ent_symStep_ne _ _ _ (h q (List.mem_cons_self q rest)).1
          (h q (List.mem_cons_self q rest)).2]

end MatrixLemmas

/-- Entries covered by a duplicate-free list of strictly-lower-triangle,
in-bounds pairs each receive the average of the two mirrored entries of
the starting matrix, at both mirrored positions. -/
lemma ent_symFold_covered {α : Type} (d : α) (avg : α → α → α)
    (P : List (ℕ × ℕ)) (m : List (List α)) {p : ℕ × ℕ}
    (hP : ∀ q ∈ P, q.1 < q.2) (hnd : P.Nodup)
    (hb : ∀ q ∈ P, q.1 < m.length ∧ q.2 < m.length ∧
        q.2 < rowLen m q.1 ∧ q.1 < rowLen m q.2)
    (hmem : p ∈ P) :
    ent d (symFold avg d P m) p.1 p.2
        = avg (ent d m p.1 p.2) (ent d m p.2 p.1) ∧
    ent d (symFold avg d P m) p.2 p.1
        = avg (ent d m p.1 p.2) (ent d m p.2 p.1) := by
  induction P generalizing m with
  | nil => cases hmem
  | cons q rest ih =>
    have hq12 : q.1 < q.2 := hP q (List.mem_cons_self q rest)
    obtain ⟨hq1m, hq2m, hq2r, hq1r⟩ := hb q (List.mem_cons_self q rest)
    have hqnotin : q ∉ rest := (List.nodup_cons.mp hnd).1
    have hrest_nd : rest.Nodup := (List.nodup_cons.mp hnd).2
    have hfold : symFold avg d (q :: rest) m
        = symFold avg d rest (symStep avg d m q) := rfl
    rcases List.mem_cons.mp hmem with hpq | hmem'
    · subst hpq
      have huntouched1 : ∀ r ∈ rest,
          (p.1, p.2) ≠ (r.1, r.2) ∧ (p.1, p.2) ≠ (r.2, r.1) := by
        intro r hr
        have hr12 : r.1 < r.2 := hP r (List.mem_cons_of_mem p hr)
        constructor
        · intro he
          have h1 : p.1 = r.1 := congrArg Prod.fst he
          have h2 : p.2 = r.2 := congrArg Prod.snd he
          exact hqnotin ((Prod.ext_iff.mpr ⟨h1, h2⟩) ▸ hr)
        · intro he
          have h1 : p.1 = r.2 := congrArg Prod.fst he
          have h2 : p.2 = r.1 := congrArg Prod.snd he
          omega
      have huntouched2 : ∀ r ∈ rest,
          (p.2, p.1) ≠ (r.1, r.2) ∧ (p.2, p.1) ≠ (r.2, r.1) := by
        intro r hr
        have hr12 : r.1 < r.2 := hP r (List.mem_cons_of_mem p hr)
        constructor
        · intro he
          have h1 : p.2 = r.1 := congrArg Prod.fst he
          have h2 : p.1 = r.2 := congrArg Prod.snd he
          omega
        · intro he
          have h1 : p.2 = r.2 := congrArg Prod.fst he
          have h2 : p.1 = r.1 := congrArg Prod.snd he
          exact hqnotin ((Prod.ext_iff.mpr ⟨h2, h1⟩) ▸ hr)
      constructor
      · rw [hfold, ent_symFold_untouched d avg rest _ huntouched1,
          ent_symStep_fst d avg m hq12 hq1m hq2r]
      · rw [hfold, ent_symFold_untouched d avg rest _ huntouched2,
          ent_symStep_snd d avg m hq2m hq1r]
    · have hp12 : p.1 < p.2 := hP p (List.mem_cons_of_mem q hmem')
      have hpq : p ≠ q := fun he => hqnotin (he ▸ hmem')
      have hb' : ∀ r ∈ rest, r.1 < (symStep avg d m q).length ∧
          r.2 < (symStep avg d m q).length ∧
          r.2 < rowLen (symStep avg d m q) r.1 ∧
          r.1 < rowLen (symStep avg d m q) r.2 := by
        intro r hr
        obtain ⟨a, b, c, e⟩ := hb r (List.mem_cons_of_mem q hr)
        rw [length_symStep, rowLen_symStep, rowLen_symStep]
        exact ⟨a, b, c, e⟩
      have e1 : ent d (symStep avg d m q) p.1 p.2 = ent d m p.1 p.2 := by
        refine ent_symStep_ne d avg m ?_ ?_
        · intro he
          have h1 : p.1 = q.1 := congrArg Prod.fst he
          have h2 : p.2 = q.2 := congrArg Prod.snd he
          exact hpq (Prod.ext_iff.mpr ⟨h1, h2⟩)
        · intro he
          have h1 : p.1 = q.2 := congrArg Prod.fst he
          have h2 : p.2 = q.1 := congrArg Prod.snd he
          omega
      have e2 : ent d (symStep avg d m q) p.2 p.1 = ent d m p.2 p.1 := by
        refine ent_symStep_ne d avg m ?_ ?_
        · intro he
          have h1 : p.2 = q.1 := congrArg Prod.fst he
          have h2 : p.1 = q.2 := congrArg Prod.snd he
          omega
        · intro he
          have h1 : p.2 = q.2 := congrArg Prod.fst he
          have h2 : p.1 = q.1 := congrArg Prod.snd he
          exact hpq (Prod.ext_iff.mpr ⟨h2, h1⟩)
      have := ih (symStep avg d m q)
        (fun r hr => hP r (List.mem_cons_of_mem q hr)) hrest_nd hb' hmem'
      rw [e1, e2] at this
      rw [hfold]
      exact this

/-- The (i, j) pairs visited by the double loop of
`restore_symmetry_vec_f64`, computed from the input's shape. -/
def pairList {α : Type} (mat : List (List α)) : List (ℕ × ℕ) :=
  (List.range mat.length).flatMap
    (fun i => (List.range' (i + 1) (rowLen mat i - (i + 1))).map (fun j => (i, j)))

lemma mem_pairList {α : Type} (mat : List (List α)) (p : ℕ × ℕ) :
    p ∈ pairList mat ↔
      p.1 < mat.length ∧ p.1 + 1 ≤ p.2 ∧ p.2 < rowLen mat p.1 := by
  unfold pairList
  simp only [List.mem_flatMap, List.mem_map, List.mem_range, List.mem_range']
  constructor
  · rintro ⟨i, hi, j, ⟨k, hk, rfl⟩, rfl⟩
    refine ⟨hi, by omega, ?_⟩
    show i + 1 + 1 * k < rowLen mat i
    omega
  · rintro ⟨h1, h2, h3⟩
    exact ⟨p.1, h1, p.2, ⟨p.2 - (p.1 + 1), by omega, by omega⟩, rfl⟩

lemma pairList_lower {α : Type} (mat : List (List α)) :
    ∀ p ∈ pairList mat, p.1 < p.2 := by
  intro p hp
  have := (mem_pairList mat p).mp hp
  omega

lemma pairList_nodup {α : Type} (mat : List (List α)) :
    (pairList mat).Nodup := by
  unfold pairList
  rw [List.nodup_flatMap]
  constructor
  · intro i _
    refine List.Nodup.map ?_ (List.nodup_range' _ _)
    intro a b hab
    exact congrArg Prod.snd hab
  · refine List.Pairwise.imp ?_ (List.pairwise_lt_range _)
    intro i₁ i₂ hlt
    intro x hx1 hx2
    obtain ⟨j₁, _, rfl⟩ := List.mem_map.mp hx1
    obtain ⟨j₂, _, he⟩ := List.mem_map.mp hx2
    have : i₂ = i₁ := congrArg Prod.fst he
    omega

lemma symFold_append {α : Type} (avg : α → α → α) (d : α)
    (A B : List (ℕ × ℕ)) (m : List (List α)) :
    symFold avg d (A ++ B) m = symFold avg d B (symFold avg d A m) :=
  List.foldl_append _ _ _ _

/-- The double loop of `restore_symmetry_gen` visits exactly the pairs of
`pairList` in order (row lengths are invariant under the loop body, so
reading the inner bound from the current state changes nothing). -/
lemma restore_symmetry_gen_eq_symFold {α : Type} (avg : α → α → α) (d : α)
    (mat : List (List α)) :
    restore_symmetry_gen avg d mat = symFold avg d (pairList mat) mat := by
  suffices h : ∀ (I : List ℕ) (m : List (List α)),
      (∀ i, rowLen m i = rowLen mat i) →
      I.foldl (fun m i =>
          (List.range' (i + 1) ((m.getD i []).length - (i + 1))).foldl
            (fun m2 j => symStep avg d m2 (i, j)) m) m
        = symFold avg d
            (I.flatMap (fun i =>
              (List.range' (i + 1) (rowLen mat i - (i + 1))).map
                (fun j => (i, j)))) m by
    exact h (List.range mat.length) mat (fun _ => rfl)
  intro I
  induction I with
  | nil => intro m _; rfl
  | cons i I' ih =>
    intro m hrow
    rw [List.foldl_cons, List.flatMap_cons, symFold_append]
    have hlen : (m.getD i []).length = rowLen mat i := hrow i
    have hinner : (List.range' (i + 1) ((m.getD i []).length - (i + 1))).foldl
          (fun m2 j => symStep avg d m2 (i, j)) m
        = symFold avg d
            ((List.range' (i + 1) (rowLen mat i - (i + 1))).map
              (fun j => (i, j))) m := by
      rw [hlen]
      unfold symFold
      rw [List.foldl_map]
    rw [hinner]
    refine ih _ ?_
    intro k
    rw [rowLen_symFold]
    exact hrow k

lemma rowLen_of_squareMat {α : Type} {mat : List (List α)}
    (hsq : SquareMat mat) {i : ℕ} (hi : i < mat.length) :
    rowLen mat i = mat.length := by
  unfold rowLen
  rw [List.getD_eq_getElem _ _ hi]
  exact hsq _ (List.getElem_mem hi)

lemma length_restore {α : Type} (avg : α → α → α) (d : α)
    (mat : List (List α)) :
    (restore_symmetry_gen avg d mat).length = mat.length := by
  rw [restore_symmetry_gen_eq_symFold]
  exact length_symFold d avg _ mat

lemma rowLen_restore {α : Type} (avg : α → α → α) (d : α)
    (mat : List (List α)) (k : ℕ) :
    rowLen (restore_symmetry_gen avg d mat) k = rowLen mat k := by
  rw [restore_symmetry_gen_eq_symFold]
  exact rowLen_symFold d avg _ mat k

lemma ent_restore_diag {α : Type} (avg : α → α → α) (d : α)
    (mat : List (List α)) (i : ℕ) :
    ent d (restore_symmetry_gen avg d mat) i i = ent d mat i i := by
  rw [restore_symmetry_gen_eq_symFold]
  apply ent_symFold_untouched
  intro p hp
  have hlt := pairList_lower mat p hp
  constructor
  · intro he
    have h1 : i = p.1 := congrArg Prod.fst he
    have h2 : i = p.2 := congrArg Prod.snd he
    omega
  · intro he
    have h1 : i = p.2 := congrArg Prod.fst he
    have h2 : i = p.1 := congrArg Prod.snd he
    omega

lemma ent_restore_off {α : Type} (avg : α → α → α) (d : α)
    {mat : List (List α)} (hsq : SquareMat mat) {i j : ℕ}
    (hij : i < j) (hj : j < mat.length) :
    ent d (restore_symmetry_gen avg d mat) i j
        = avg (ent d mat i j) (ent d mat j i) ∧
    ent d (restore_symmetry_gen avg d mat) j i
        = avg (ent d mat i j) (ent d mat j i) := by
  have hi : i < mat.length := lt_trans hij hj
  have hmem : ((i, j) : ℕ × ℕ) ∈ pairList mat := by
    rw [mem_pairList]
    exact ⟨hi, hij, by rw [rowLen_of_squareMat hsq hi]; exact hj⟩
  have hb : ∀ q ∈ pairList mat, q.1 < mat.length ∧ q.2 < mat.length ∧
      q.2 < rowLen mat q.1 ∧ q.1 < rowLen mat q.2 := by
    intro q hq
    obtain ⟨h1, h2, h3⟩ := (mem_pairList mat q).mp hq
    have hq2 : q.2 < mat.length := by
      rw [← rowLen_of_squareMat hsq h1]; exact h3
    exact ⟨h1, hq2, h3, by rw [rowLen_of_squareMat hsq hq2]; exact h1⟩
  have := ent_symFold_covered d avg (pairList mat) mat
    (pairList_lower mat) (pairList_nodup mat) hb hmem
  rw [restore_symmetry_gen_eq_symFold]
  exact this

lemma squareMat_iff_rowLen {α : Type} (m : List (List α)) :
    SquareMat m ↔ ∀ i, i < m.length → rowLen m i = m.length := by
  unfold SquareMat
  constructor
  · intro h i hi
    unfold rowLen
    rw [List.getD_eq_getElem _ _ hi]
    exact h _ (List.getElem_mem hi)
  · intro h r hr
    obtain ⟨i, hi, he⟩ := List.mem_iff_getElem.mp hr
    subst he
    have := h i hi
    unfold rowLen at this
    rwa [List.getD_eq_getElem _ _ hi] at this

/-- Two matrices with the same shape and the same entries are equal. -/
lemma mat_ext {α : Type} (d : α) {m₁ m₂ : List (List α)}
    (hlen : m₁.length = m₂.length)
    (hrow : ∀ i, i < m₁.length → rowLen m₁ i = rowLen m₂ i)
    (hent : ∀ i j, i < m₁.length → j < rowLen m₁ i →
        ent d m₁ i j = ent d m₂ i j) :
    m₁ = m₂ := by
  apply List.ext_getElem?
  intro n
  by_cases hn : n < m₁.length
  · have hn2 : n < m₂.length := hlen ▸ hn
    rw [List.getElem?_eq_getElem hn, List.getElem?_eq_getElem hn2]
    have hr1 : m₁[n].length = rowLen m₁ n := by
      unfold rowLen
      rw [List.getD_eq_getElem _ _ hn]
    have hr2 : m₂[n].length = rowLen m₂ n := by
      unfold rowLen
      rw [List.getD_eq_getElem _ _ hn2]
    congr 1
    apply List.ext_getElem?
    intro k
    by_cases hk : k < rowLen m₁ n
    · have hk1 : k < m₁[n].length := by rw [hr1]; exact hk
      have hk2 : k < m₂[n].length := by
        rw [hr2, ← hrow n hn]; exact hk
      rw [List.getElem?_eq_getElem hk1, List.getElem?_eq_getElem hk2]
      have he := hent n k hn hk
      unfold ent at he
      rw [List.getD_eq_getElem _ _ hn, List.getD_eq_getElem _ _ hn2,
        List.getD_eq_getElem _ _ hk1, List.getD_eq_getElem _ _ hk2] at he
      rw [he]
    · rw [List.getElem?_eq_none (by rw [hr1]; omega),
        List.getElem?_eq_none (by rw [hr2, ← hrow n hn]; omega)]
  · rw [List.getElem?_eq_none (by omega),
      List.getElem?_eq_none (by rw [← hlen]; omega)]

/-! ### Step size (src/lib.rs lines 26-28) and differencing routines

The differencing routines live in the crate modules `diff.rs`,
`jacobian.rs`, `hessian.rs` and `pert.rs`, which are declared in
src/lib.rs but absent from the source tree; they are modelled here from
the specification (sections 4.1, 4.2, 4.4, 4.5) and the trait
documentation of src/lib.rs. -/

/-- Machine epsilon of `f64`, `2^-52` (the value of `std::f64::EPSILON`). -/
def F64_EPSILON : ℚ := 1 / 2 ^ 52

/-- Translation of `EPS_F64` (src/lib.rs line 28): `4.0 * std::f64::EPSILON`. -/
def EPS_F64 : ℚ := 4 * F64_EPSILON

/-- Modelled from the spec: every routine uses `sqrt(EPS_F64)` as the
perturbation magnitude; `EPS_F64 = 2^-50` exactly, so its square root is
exactly representable as `2^-25`. -/
def sqrt_EPS_F64 : ℚ := 1 / 2 ^ 25

/-- Perturbation of one coordinate: `x` with `x[i]` replaced by `x[i] + δ`. -/
def bump (δ : ℚ) (x : List ℚ) (i : ℕ) : List ℚ := x.set i (x.getD i 0 + δ)

lemma bump_comm (δ : ℚ) (x : List ℚ) {a b : ℕ} (hab : a ≠ b) :
    bump δ (bump δ x a) b = bump δ (bump δ x b) a := by
  unfold bump
  rw [getD_set_ne _ _ _ hab, getD_set_ne _ _ _ (fun h => hab h.symm),
    List.set_comm _ _ _ hab]

lemma length_bump (δ : ℚ) (x : List ℚ) (i : ℕ) :
    (bump δ x i).length = x.length := List.length_set x i _

/-- An `m × n` zero-initialized matrix. -/
def zeroMat (mrows ncols : ℕ) : List (List ℚ) :=
  List.replicate mrows (List.replicate ncols (0 : ℚ))

lemma length_zeroMat (mrows ncols : ℕ) : (zeroMat mrows ncols).length = mrows :=
  List.length_replicate mrows _

lemma rowLen_zeroMat (mrows ncols : ℕ) {k : ℕ} (hk : k < mrows) :
    rowLen (zeroMat mrows ncols) k = ncols := by
  unfold rowLen zeroMat
  rw [List.getD_eq_getElem?_getD, List.getElem?_replicate, if_pos hk]
  exact List.length_replicate ncols _

lemma ent_zeroMat (mrows ncols a b : ℕ) : ent 0 (zeroMat mrows ncols) a b = 0 := by
  unfold ent zeroMat
  have h1 : (List.replicate mrows (List.replicate ncols (0 : ℚ))).getD a []
      = if a < mrows then List.replicate ncols (0 : ℚ) else [] := by
    rw [List.getD_eq_getElem?_getD, List.getElem?_replicate]
    by_cases ha : a < mrows
    · rw [if_pos ha, if_pos ha]
      rfl
    · rw [if_neg ha, if_neg ha]
      rfl
  rw [h1]
  by_cases ha : a < mrows
  · rw [if_pos ha, List.getD_eq_getElem?_getD, List.getElem?_replicate]
    by_cases hb : b < ncols
    · rw [if_pos hb]
      rfl
    · rw [if_neg hb]
      rfl
  · rw [if_neg ha]
    rfl

/-- Modelled from the spec: `forward_diff` (crate module `diff.rs`, absent
from src/), with the step size a parameter: for each coordinate `i`,
perturb `x[i]` by `+h`, evaluate, subtract the shared baseline `f(x)`,
divide by `h`. -/
def forward_diff_h (h : ℚ) (x : List ℚ) (f : List ℚ → ℚ) : List ℚ :=
  let fx := f x
  (List.range x.length).map fun i => (f (bump h x i) - fx) / h

/-- Modelled from the spec: `forward_diff` with the step fixed to
`sqrt(EPS_F64)`. -/
def forward_diff (x : List ℚ) (f : List ℚ → ℚ) : List ℚ :=
  forward_diff_h sqrt_EPS_F64 x f

/-- Modelled from the spec: `forward_diff` with every call to `f` logged
(the argument of each evaluation appended in order), to make the
evaluation count observable: one baseline call plus one call per
coordinate. -/
def forward_diff_logged (x : List ℚ) (f : List ℚ → ℚ) :
    List ℚ × List (List ℚ) :=
  let fx := f x
  (List.range x.length).foldl
    (fun acc i =>
      let v := bump sqrt_EPS_F64 x i
      (acc.1 ++ [(f v - fx) / sqrt_EPS_F64], acc.2 ++ [v]))
    ([], [x])

/-- Modelled from the spec: the per-pair second-order forward quotient of
`forward_hessian_nograd_sparse`,
`(f(x + h*e_a + h*e_b) - f(x + h*e_a) - f(x + h*e_b) + f(x)) / EPS_F64`. -/
def hessQuot_h (h : ℚ) (x : List ℚ) (f : List ℚ → ℚ) (a b : ℕ) : ℚ :=
  (f (bump h (bump h x a) b) - f (bump h x a) - f (bump h x b) + f x)
    / (h * h)

/-- Modelled from the spec: the quotient at step `sqrt(EPS_F64)` (the
crate divides by `EPS_F64`, which equals the square of the step). -/
def hessQuot (x : List ℚ) (f : List ℚ → ℚ) (a b : ℕ) : ℚ :=
  hessQuot_h sqrt_EPS_F64 x f a b

lemma hessQuot_h_symm (h : ℚ) (x : List ℚ) (f : List ℚ → ℚ) (a b : ℕ) :
    hessQuot_h h x f a b = hessQuot_h h x f b a := by
  by_cases hab : a = b
  · rw [hab]
  · unfold hessQuot_h
    rw [bump_comm _ _ hab]
    ring

/-- Modelled from the spec: one step of `forward_hessian_nograd_sparse`,
writing the quotient of pair `p` into entries `(p.1, p.2)` and
`(p.2, p.1)`. -/
def hessWrite (h : ℚ) (x : List ℚ) (f : List ℚ → ℚ) (m : List (List ℚ))
    (p : ℕ × ℕ) : List (List ℚ) :=
  setEnt (setEnt m p.1 p.2 (hessQuot_h h x f p.1 p.2)) p.2 p.1
    (hessQuot_h h x f p.1 p.2)

/-- Modelled from the spec: `forward_hessian_nograd_sparse` (crate module
`hessian.rs`, absent from src/), with the step a parameter: starting from
an `n × n` zero matrix, write the second-order quotient of each listed
pair `(a, b)` into entries `(a, b)` and `(b, a)`. -/
def forward_hessian_nograd_sparse_h (h : ℚ) (x : List ℚ) (f : List ℚ → ℚ)
    (indices : List (ℕ × ℕ)) : List (List ℚ) :=
  indices.foldl (hessWrite h x f) (zeroMat x.length x.length)

/-- Modelled from the spec: `forward_hessian_nograd_sparse` with the step
fixed to `sqrt(EPS_F64)`. -/
def forward_hessian_nograd_sparse (x : List ℚ) (f : List ℚ → ℚ)
    (indices : List (ℕ × ℕ)) : List (List ℚ) :=
  forward_hessian_nograd_sparse_h sqrt_EPS_F64 x f indices

/-- Modelled from the spec: a `PerturbationVector` (crate module `pert.rs`,
absent from src/): one evaluation group, mapping each
simultaneously-perturbed input index to the list of output indices it
affects. -/
structure PerturbationVector : Type where
  pairs : List (ℕ × List ℕ)

/-- Modelled from the spec: an ordered sequence of groups, one per
function evaluation. -/
abbrev PerturbationVectors : Type := List PerturbationVector

/-- Simultaneous perturbation: add `δ` to every input index of a group. -/
def groupBump (δ : ℚ) (x : List ℚ) (g : PerturbationVector) : List ℚ :=
  g.pairs.foldl (fun v q => bump δ v q.1) x

/-- Output `j` of `fs` does not depend on input `i`: storing any value at
index `i` leaves component `j` of the result unchanged.  The `(j, i)`
pairs outside this relation are the sparsity pattern of `fs`. -/
def Unaffected (fs : List ℚ → List ℚ) (j i : ℕ) : Prop :=
  ∀ v t, (fs (v.set i t)).getD j 0 = (fs v).getD j 0

/-- Modelled from the spec: dense forward Jacobian (crate module
`jacobian.rs`, absent from src/): the `m × n` matrix with
`J[j][i] = (fs(x + h*e_i)[j] - fs(x)[j]) / h`. -/
def forward_jacobian_h (h : ℚ) (x : List ℚ) (fs : List ℚ → List ℚ) :
    List (List ℚ) :=
  (List.range (fs x).length).map fun j =>
    (List.range x.length).map fun i =>
      ((fs (bump h x i)).getD j 0 - (fs x).getD j 0) / h

/-- Modelled from the spec: dense forward Jacobian at step `sqrt(EPS_F64)`. -/
def forward_jacobian (x : List ℚ) (fs : List ℚ → List ℚ) : List (List ℚ) :=
  forward_jacobian_h sqrt_EPS_F64 x fs

/-- Modelled from the spec: dense central Jacobian:
`J[j][i] = (fs(x + h*e_i)[j] - fs(x - h*e_i)[j]) / (2h)`. -/
def central_jacobian_h (h : ℚ) (x : List ℚ) (fs : List ℚ → List ℚ) :
    List (List ℚ) :=
  (List.range (fs x).length).map fun j =>
    (List.range x.length).map fun i =>
      ((fs (bump h x i)).getD j 0 - (fs (bump (-h) x i)).getD j 0) / (2 * h)

/-- Modelled from the spec: dense central Jacobian at step `sqrt(EPS_F64)`. -/
def central_jacobian (x : List ℚ) (fs : List ℚ → List ℚ) : List (List ℚ) :=
  central_jacobian_h sqrt_EPS_F64 x fs

/-- One write into a Jacobian under assembly: position (row, column) and
value. -/
def jacWrite (m : List (List ℚ)) (w : (ℕ × ℕ) × ℚ) : List (List ℚ) :=
  setEnt m w.1.1 w.1.2 w.2

/-- Sequencing a list of Jacobian writes. -/
def writeFold (W : List ((ℕ × ℕ) × ℚ)) (m : List (List ℚ)) :
    List (List ℚ) :=
  W.foldl jacWrite m

/-- The writes emitted while decoding the groups: for each group `g`, each
declared pair (input `g.pairs[k].1` → output `j`), one write at position
`(j, input)` of the group-and-row-determined value `val g j`. -/
def pertWrites (val : PerturbationVector → ℕ → ℚ)
    (pert : PerturbationVectors) : List ((ℕ × ℕ) × ℚ) :=
  pert.flatMap fun g =>
    g.pairs.flatMap fun q => q.2.map fun j => ((j, q.1), val g j)

/-- Modelled from the spec: grouped forward Jacobian: for each group,
jointly perturb every one of its inputs by `+h`, evaluate `fs` once, and
decode each declared (input `i` → output `j`) pair into `J[j][i]` against
the shared baseline `fs(x)`; entries never declared stay zero. -/
def forward_jacobian_pert_h (h : ℚ) (x : List ℚ) (fs : List ℚ → List ℚ)
    (pert : PerturbationVectors) : List (List ℚ) :=
  pert.foldl
    (fun J g =>
      let fxp := fs (groupBump h x g)
      g.pairs.foldl
        (fun J2 q =>
          q.2.foldl
            (fun J3 j => setEnt J3 j q.1 ((fxp.getD j 0 - (fs x).getD j 0) / h))
            J2)
        J)
    (zeroMat (fs x).length x.length)

/-- Modelled from the spec: grouped forward Jacobian at step `sqrt(EPS_F64)`. -/
def forward_jacobian_pert (x : List ℚ) (fs : List ℚ → List ℚ)
    (pert : PerturbationVectors) : List (List ℚ) :=
  forward_jacobian_pert_h sqrt_EPS_F64 x fs pert

/-- Modelled from the spec: grouped central Jacobian: two jointly
perturbed evaluations at `±h` per group. -/
def central_jacobian_pert_h (h : ℚ) (x : List ℚ) (fs : List ℚ → List ℚ)
    (pert : PerturbationVectors) : List (List ℚ) :=
  pert.foldl
    (fun J g =>
      let fxp := fs (groupBump h x g)
      let fxm := fs (groupBump (-h) x g)
      g.pairs.foldl
        (fun J2 q =>
          q.2.foldl
            (fun J3 j => setEnt J3 j q.1 ((fxp.getD j 0 - fxm.getD j 0) / (2 * h)))
            J2)
        J)
    (zeroMat (fs x).length x.length)

/-- Modelled from the spec: grouped central Jacobian at step `sqrt(EPS_F64)`. -/
def central_jacobian_pert (x : List ℚ) (fs : List ℚ → List ℚ)
    (pert : PerturbationVectors) : List (List ℚ) :=
  central_jacobian_pert_h sqrt_EPS_F64 x fs pert

end Finitediff

open Finitediff

/-- C1: for a square matrix, `restore_symmetry_vec_f64` returns a matrix
in which every entry `(i, j)` equals the mirrored entry `(j, i)` and both
equal `(input[i][j] + input[j][i]) / 2`. -/
theorem restore_symmetry_averages (mat : List (List ℚ)) (hsq : SquareMat mat)
    (i j : ℕ) (hi : i < mat.length) (hj : j < mat.length) :
    ent 0 (restore_symmetry_vec_f64 mat) i j
        = ent 0 (restore_symmetry_vec_f64 mat) j i ∧
    ent 0 (restore_symmetry_vec_f64 mat) i j
        = (ent 0 mat i j + ent 0 mat j i) / 2 := by
  unfold restore_symmetry_vec_f64
  rcases lt_trichotomy i j with hij | rfl | hji
  · obtain ⟨h1, h2⟩ := ent_restore_off (fun a b => (a + b) / 2) 0 hsq hij hj
    exact ⟨by rw [h1, h2], h1⟩
  · rw [ent_restore_diag]
    exact ⟨rfl, by ring⟩
  · obtain ⟨h1, h2⟩ := ent_restore_off (fun a b => (a + b) / 2) 0 hsq hji hi
    refine ⟨by rw [h1, h2], ?_⟩
    rw [h2]
    ring

/-- Witness for C1 at a concrete matrix. -/
theorem restore_symmetry_averages_witness :
    SquareMat [[(1 : ℚ), 2], [4, 8]] ∧ 0 < 2 ∧ 1 < 2 ∧
      (ent 0 (restore_symmetry_vec_f64 [[(1 : ℚ), 2], [4, 8]]) 0 1
          = ent 0 (restore_symmetry_vec_f64 [[(1 : ℚ), 2], [4, 8]]) 1 0 ∧
       ent 0 (restore_symmetry_vec_f64 [[(1 : ℚ), 2], [4, 8]]) 0 1
          = (ent 0 [[(1 : ℚ), 2], [4, 8]] 0 1 + ent 0 [[(1 : ℚ), 2], [4, 8]] 1 0) / 2) :=
  ⟨by unfold SquareMat; decide, by decide, by decide,
    restore_symmetry_averages [[(1 : ℚ), 2], [4, 8]] (by unfold SquareMat; decide) 0 1
      (by decide) (by decide)⟩

/-- C10: `restore_symmetry_vec_f64` never writes a diagonal entry: the
diagonal of the result is the diagonal of the input, read back verbatim
rather than recomputed through the averaging formula — stated first for
an arbitrary entry type and an arbitrary averaging operation (so it holds
even where `avg a a ≠ a`, as for IEEE NaN or near-overflow magnitudes),
then for the `f64` instance. -/
theorem restore_symmetry_preserves_diagonal :
    (∀ (α : Type) (avg : α → α → α) (d : α) (mat : List (List α)) (i : ℕ),
        ent d (restore_symmetry_gen avg d mat) i i = ent d mat i i) ∧
    (∀ (mat : List (List ℚ)) (i : ℕ),
        ent 0 (restore_symmetry_vec_f64 mat) i i = ent 0 mat i i) :=
  ⟨fun _ avg d mat i => ent_restore_diag avg d mat i,
   fun mat i => ent_restore_diag _ 0 mat i⟩

/-- Shape facts for the `f64` instance of the symmetrization loop. -/
lemma length_restoreQ (mat : List (List ℚ)) :
    (restore_symmetry_vec_f64 mat).length = mat.length :=
  length_restore _ _ mat

lemma rowLen_restoreQ (mat : List (List ℚ)) (k : ℕ) :
    rowLen (restore_symmetry_vec_f64 mat) k = rowLen mat k :=
  rowLen_restore _ _ mat k

/-- C3: `restore_symmetry_vec_f64` is idempotent on square matrices, and
an already-symmetric square matrix is returned unchanged. -/
theorem restore_symmetry_idempotent (mat : List (List ℚ)) (hsq : SquareMat mat) :
    restore_symmetry_vec_f64 (restore_symmetry_vec_f64 mat)
        = restore_symmetry_vec_f64 mat ∧
    ((∀ i j, i < mat.length → j < mat.length → ent 0 mat i j = ent 0 mat j i) →
      restore_symmetry_vec_f64 mat = mat) := by
  have hlen : (restore_symmetry_vec_f64 mat).length = mat.length :=
    length_restore _ _ mat
  have hrow : ∀ k, rowLen (restore_symmetry_vec_f64 mat) k = rowLen mat k :=
    rowLen_restore _ _ mat
  have hsqmat := (squareMat_iff_rowLen mat).mp hsq
  have hsq' : SquareMat (restore_symmetry_vec_f64 mat) := by
    rw [squareMat_iff_rowLen]
    intro i hi
    rw [hrow, hlen]
    exact hsqmat i (by rw [← hlen]; exact hi)
  constructor
  · apply mat_ext (0 : ℚ)
    · exact length_restore _ _ _
    · intro i _
      exact rowLen_restore _ _ _ i
    · intro i j hi hj
      rw [length_restoreQ] at hi
      rw [rowLen_restoreQ] at hj
      have hi' : i < mat.length := by rw [← hlen]; exact hi
      have hjlen : j < mat.length := by
        rw [hrow, rowLen_of_squareMat hsq hi'] at hj
        exact hj
      have hj' : j < (restore_symmetry_vec_f64 mat).length := by
        rw [hlen]; exact hjlen
      rcases lt_trichotomy i j with hij | rfl | hji
      · have hoff := ent_restore_off (fun a b => (a + b) / 2) (0 : ℚ) hsq' hij hj'
        have hsymm := (restore_symmetry_averages mat hsq i j hi' hjlen).1
        show ent 0 (restore_symmetry_gen (fun a b => (a + b) / 2) 0
            (restore_symmetry_vec_f64 mat)) i j
          = ent 0 (restore_symmetry_vec_f64 mat) i j
        rw [hoff.1, ← hsymm]
        ring
      · show ent 0 (restore_symmetry_gen (fun a b => (a + b) / 2) 0
            (restore_symmetry_vec_f64 mat)) i i
          = ent 0 (restore_symmetry_vec_f64 mat) i i
        exact ent_restore_diag _ _ _ i
      · have hoff := ent_restore_off (fun a b => (a + b) / 2) (0 : ℚ) hsq' hji
          (by rw [hlen]; exact hi')
        have hsymm := (restore_symmetry_averages mat hsq j i hjlen hi').1
        show ent 0 (restore_symmetry_gen (fun a b => (a + b) / 2) 0
            (restore_symmetry_vec_f64 mat)) i j
          = ent 0 (restore_symmetry_vec_f64 mat) i j
        rw [hoff.2, ← hsymm]
        ring
  · intro hmatsymm
    apply mat_ext (0 : ℚ)
    · exact hlen
    · intro i _
      exact hrow i
    · intro i j hi hj
      rw [hlen] at hi
      rw [hrow, rowLen_of_squareMat hsq hi] at hj
      rcases lt_trichotomy i j with hij | rfl | hji
      · have hoff := ent_restore_off (fun a b => (a + b) / 2) (0 : ℚ) hsq hij hj
        show ent 0 (restore_symmetry_gen (fun a b => (a + b) / 2) 0 mat) i j
          = ent 0 mat i j
        rw [hoff.1, hmatsymm i j hi hj]
        ring
      · exact ent_restore_diag _ _ _ i
      · have hoff := ent_restore_off (fun a b => (a + b) / 2) (0 : ℚ) hsq hji hi
        show ent 0 (restore_symmetry_gen (fun a b => (a + b) / 2) 0 mat) i j
          = ent 0 mat i j
        rw [hoff.2, hmatsymm i j hi hj]
        ring

/-- Witness for C3 at a concrete symmetric matrix. -/
theorem restore_symmetry_idempotent_witness :
    SquareMat [[(1 : ℚ), 2], [2, 5]] ∧
      (restore_symmetry_vec_f64 (restore_symmetry_vec_f64 [[(1 : ℚ), 2], [2, 5]])
          = restore_symmetry_vec_f64 [[(1 : ℚ), 2], [2, 5]] ∧
       ((∀ i j, i < ([[(1 : ℚ), 2], [2, 5]] : List (List ℚ)).length →
            j < ([[(1 : ℚ), 2], [2, 5]] : List (List ℚ)).length →
            ent 0 [[(1 : ℚ), 2], [2, 5]] i j = ent 0 [[(1 : ℚ), 2], [2, 5]] j i) →
          restore_symmetry_vec_f64 [[(1 : ℚ), 2], [2, 5]] = [[(1 : ℚ), 2], [2, 5]])) :=
  ⟨by unfold SquareMat; decide,
    restore_symmetry_idempotent [[(1 : ℚ), 2], [2, 5]] (by unfold SquareMat; decide)⟩


/-- C4: for an in-bounds index and a normally-returning callable, after
`mod_and_calc_vec_f64` returns, the parameter vector equals its value
before the call: the transient perturbation is fully restored. -/
theorem mod_and_calc_restores {α : Type} (x : List ℚ) (f : List ℚ → α)
    (idx : ℕ) (y : ℚ) (h : idx < x.length) :
    (mod_and_calc_vec_f64 x f idx y).2 = x := by
  unfold mod_and_calc_vec_f64
  exact set_set_restore x idx _ h

/-- Witness for C4 at a concrete input. -/
theorem mod_and_calc_restores_witness :
    0 < ([(3 : ℚ), 5].length) ∧
      (mod_and_calc_vec_f64 [(3 : ℚ), 5] (fun v => v.getD 0 0) 0 7).2 = [(3 : ℚ), 5] :=
  ⟨by decide, mod_and_calc_restores [(3 : ℚ), 5] (fun v => v.getD 0 0) 0 7 (by decide)⟩

/-- C9: `mod_and_calc_vec_f64` returns `f`'s result computed on the vector
that agrees with `x` everywhere except at `idx`, where it holds
`x[idx] + y`; instantiating the polymorphic result type with a call log
shows `f` is invoked exactly once, on exactly that vector. -/
theorem mod_and_calc_calls_once {α : Type} (x : List ℚ) (f : List ℚ → α)
    (idx : ℕ) (y : ℚ) (h : idx < x.length) :
    (mod_and_calc_vec_f64 x f idx y).1 = f (x.set idx (x.getD idx 0 + y)) ∧
    (x.set idx (x.getD idx 0 + y)).length = x.length ∧
    (x.set idx (x.getD idx 0 + y)).getD idx 0 = x.getD idx 0 + y ∧
    (∀ k, k ≠ idx → (x.set idx (x.getD idx 0 + y)).getD k 0 = x.getD k 0) ∧
    (mod_and_calc_vec_f64 x (fun v => [v]) idx y).1
      = [x.set idx (x.getD idx 0 + y)] := by
  refine ⟨rfl, List.length_set x idx _, getD_set_self x idx _ 0 h, ?_, rfl⟩
  intro k hk
  exact getD_set_ne x _ 0 (fun he => hk he.symm)

/-- Witness for C9 at a concrete input. -/
theorem mod_and_calc_calls_once_witness :
    1 < ([(3 : ℚ), 5].length) ∧
      ((mod_and_calc_vec_f64 [(3 : ℚ), 5] (fun v => v.getD 1 0) 1 7).1
          = (fun (v : List ℚ) => v.getD 1 0) ([(3 : ℚ), 5].set 1 ([(3 : ℚ), 5].getD 1 0 + 7)) ∧
        (([(3 : ℚ), 5].set 1 ([(3 : ℚ), 5].getD 1 0 + 7)).length = [(3 : ℚ), 5].length) ∧
        (([(3 : ℚ), 5].set 1 ([(3 : ℚ), 5].getD 1 0 + 7)).getD 1 0 = [(3 : ℚ), 5].getD 1 0 + 7) ∧
        (∀ k, k ≠ 1 → ([(3 : ℚ), 5].set 1 ([(3 : ℚ), 5].getD 1 0 + 7)).getD k 0
            = [(3 : ℚ), 5].getD k 0) ∧
        (mod_and_calc_vec_f64 [(3 : ℚ), 5] (fun v => [v]) 1 7).1
          = [[(3 : ℚ), 5].set 1 ([(3 : ℚ), 5].getD 1 0 + 7)]) :=
  ⟨by decide, mod_and_calc_calls_once [(3 : ℚ), 5] (fun v => v.getD 1 0) 1 7 (by decide)⟩

/-- C5 counterexample: at `x = [1]`, `idx = 0`, `y = 1` with a failing
callable, the parameter vector observable at the call boundary is `[2]`,
not the original `[1]`: the perturbation is NOT restored on the failure
path (the restoring store of src/utils.rs line 13 is skipped by the
unwind), so the claim as stated is false. -/
theorem mod_and_calc_fallible_counterexample :
    ¬ ((mod_and_calc_vec_f64_fallible [(1 : ℚ)]
          (fun _ => (Except.error () : Except Unit ℚ)) 0 1).1 = Except.error () ∧
       (mod_and_calc_vec_f64_fallible [(1 : ℚ)]
          (fun _ => (Except.error () : Except Unit ℚ)) 0 1).2 = [(1 : ℚ)]) :=
  fun hcl => absurd hcl.2 (by norm_num [mod_and_calc_vec_f64_fallible, List.set, List.getD])

/-- C5 amended: a fault raised by the callable propagates unchanged, but
the parameter vector is restored only on the success path; on the failure
path it is left holding the perturbed value `x[idx] + y` at `idx`. -/
theorem mod_and_calc_fallible_spec {ε α : Type} (x : List ℚ)
    (f : List ℚ → Except ε α) (idx : ℕ) (y : ℚ) (h : idx < x.length) :
    (∀ e, f (x.set idx (x.getD idx 0 + y)) = Except.error e →
        mod_and_calc_vec_f64_fallible x f idx y
          = (Except.error e, x.set idx (x.getD idx 0 + y))) ∧
    (∀ a, f (x.set idx (x.getD idx 0 + y)) = Except.ok a →
        mod_and_calc_vec_f64_fallible x f idx y = (Except.ok a, x)) := by
  constructor
  · intro e he
    simp only [mod_and_calc_vec_f64_fallible, he]
  · intro a ha
    simp only [mod_and_calc_vec_f64_fallible, ha, Prod.mk.injEq, true_and]
    exact set_set_restore x idx _ h

/-- Witness for the amended C5 at a concrete input. -/
theorem mod_and_calc_fallible_spec_witness :
    0 < ([(1 : ℚ)].length) ∧
      ((∀ e : Unit, (fun (_ : List ℚ) => (Except.error () : Except Unit ℚ))
            ([(1 : ℚ)].set 0 ([(1 : ℚ)].getD 0 0 + 1)) = Except.error e →
          mod_and_calc_vec_f64_fallible [(1 : ℚ)]
              (fun _ => (Except.error () : Except Unit ℚ)) 0 1
            = (Except.error e, [(1 : ℚ)].set 0 ([(1 : ℚ)].getD 0 0 + 1))) ∧
       (∀ a : ℚ, (fun (_ : List ℚ) => (Except.error () : Except Unit ℚ))
            ([(1 : ℚ)].set 0 ([(1 : ℚ)].getD 0 0 + 1)) = Except.ok a →
          mod_and_calc_vec_f64_fallible [(1 : ℚ)]
              (fun _ => (Except.error () : Except Unit ℚ)) 0 1
            = (Except.ok a, [(1 : ℚ)]))) :=
  ⟨by decide, mod_and_calc_fallible_spec [(1 : ℚ)]
      (fun _ => (Except.error () : Except Unit ℚ)) 0 1 (by decide)⟩

/-! ### C6: forward_diff -/

lemma forward_diff_logged_run (x : List ℚ) (f : List ℚ → ℚ) :
    forward_diff_logged x f
      = (forward_diff x f, x :: (List.range x.length).map (bump sqrt_EPS_F64 x)) := by
  show (List.range x.length).foldl
      (fun acc i =>
        (acc.1 ++ [(f (bump sqrt_EPS_F64 x i) - f x) / sqrt_EPS_F64],
         acc.2 ++ [bump sqrt_EPS_F64 x i]))
      ([], [x])
    = ((List.range x.length).map
        (fun i => (f (bump sqrt_EPS_F64 x i) - f x) / sqrt_EPS_F64),
       x :: (List.range x.length).map (bump sqrt_EPS_F64 x))
  suffices h : ∀ (l : List ℕ) (acc : List ℚ × List (List ℚ)),
      l.foldl
        (fun acc i =>
          (acc.1 ++ [(f (bump sqrt_EPS_F64 x i) - f x) / sqrt_EPS_F64],
           acc.2 ++ [bump sqrt_EPS_F64 x i])) acc
      = (acc.1 ++ l.map (fun i => (f (bump sqrt_EPS_F64 x i) - f x) / sqrt_EPS_F64),
         acc.2 ++ l.map (bump sqrt_EPS_F64 x)) by
    rw [h (List.range x.length) ([], [x])]
    simp
  intro l
  induction l with
  | nil =>
      intro acc
      simp
  | cons i l' ih =>
      intro acc
      rw [List.foldl_cons, ih]
      simp

/-- C6: `forward_diff` returns the length-`n` vector whose `i`-th entry is
`(f(x + sqrt(EPS_F64)*e_i) - f(x)) / sqrt(EPS_F64)`, and the logged run
shows `f` is evaluated exactly `n + 1` times: the shared baseline `x`
followed by the `n` singly-perturbed vectors. -/
theorem forward_diff_spec (x : List ℚ) (f : List ℚ → ℚ) :
    (forward_diff x f).length = x.length ∧
    (∀ i, i < x.length →
      (forward_diff x f).getD i 0
        = (f (bump sqrt_EPS_F64 x i) - f x) / sqrt_EPS_F64) ∧
    (forward_diff_logged x f).1 = forward_diff x f ∧
    (forward_diff_logged x f).2
      = x :: (List.range x.length).map (bump sqrt_EPS_F64 x) ∧
    (forward_diff_logged x f).2.length = x.length + 1 := by
  refine ⟨?_, ?_, ?_, ?_, ?_⟩
  · show ((List.range x.length).map
        (fun i => (f (bump sqrt_EPS_F64 x i) - f x) / sqrt_EPS_F64)).length
      = x.length
    rw [List.length_map, List.length_range]
  · intro i hi
    show ((List.range x.length).map
        (fun i => (f (bump sqrt_EPS_F64 x i) - f x) / sqrt_EPS_F64)).getD i 0
      = (f (bump sqrt_EPS_F64 x i) - f x) / sqrt_EPS_F64
    rw [List.getD_eq_getElem?_getD, List.getElem?_map, List.getElem?_range hi]
    rfl
  · rw [forward_diff_logged_run]
  · rw [forward_diff_logged_run]
  · rw [forward_diff_logged_run]
    simp

/-- Witness for C6 at a concrete input. -/
theorem forward_diff_spec_witness :
    (forward_diff [(1 : ℚ), 2] (fun v => v.getD 0 0 * v.getD 1 0)).length
        = ([(1 : ℚ), 2] : List ℚ).length ∧
    (∀ i, i < ([(1 : ℚ), 2] : List ℚ).length →
      (forward_diff [(1 : ℚ), 2] (fun v => v.getD 0 0 * v.getD 1 0)).getD i 0
        = ((fun (v : List ℚ) => v.getD 0 0 * v.getD 1 0)
              (bump sqrt_EPS_F64 [(1 : ℚ), 2] i)
            - (fun (v : List ℚ) => v.getD 0 0 * v.getD 1 0) [(1 : ℚ), 2])
          / sqrt_EPS_F64) ∧
    (forward_diff_logged [(1 : ℚ), 2] (fun v => v.getD 0 0 * v.getD 1 0)).1
        = forward_diff [(1 : ℚ), 2] (fun v => v.getD 0 0 * v.getD 1 0) ∧
    (forward_diff_logged [(1 : ℚ), 2] (fun v => v.getD 0 0 * v.getD 1 0)).2
        = [(1 : ℚ), 2] :: (List.range ([(1 : ℚ), 2] : List ℚ).length).map
            (bump sqrt_EPS_F64 [(1 : ℚ), 2]) ∧
    (forward_diff_logged [(1 : ℚ), 2] (fun v => v.getD 0 0 * v.getD 1 0)).2.length
        = ([(1 : ℚ), 2] : List ℚ).length + 1 :=
  forward_diff_spec [(1 : ℚ), 2] (fun v => v.getD 0 0 * v.getD 1 0)

/-! ### C7: forward_hessian_nograd_sparse -/

lemma length_hessWrite (h : ℚ) (x : List ℚ) (f : List ℚ → ℚ)
    (m : List (List ℚ)) (p : ℕ × ℕ) :
    (hessWrite h x f m p).length = m.length := by
  unfold hessWrite
  rw [length_setEnt, length_setEnt]

lemma rowLen_hessWrite (h : ℚ) (x : List ℚ) (f : List ℚ → ℚ)
    (m : List (List ℚ)) (p : ℕ × ℕ) (k : ℕ) :
    rowLen (hessWrite h x f m p) k = rowLen m k := by
  unfold hessWrite
  rw [rowLen_setEnt, rowLen_setEnt]

lemma ent_hessWrite_ne (h : ℚ) (x : List ℚ) (f : List ℚ → ℚ)
    (m : List (List ℚ)) {p : ℕ × ℕ} {a b : ℕ}
    (h1 : (a, b) ≠ (p.1, p.2)) (h2 : (a, b) ≠ (p.2, p.1)) :
    ent 0 (hessWrite h x f m p) a b = ent 0 m a b := by
  unfold hessWrite
  rw [ent_setEnt_ne _ _ _ h2, ent_setEnt_ne _ _ _ h1]

lemma ent_hessWrite_self (h : ℚ) (x : List ℚ) (f : List ℚ → ℚ)
    (m : List (List ℚ)) {p : ℕ × ℕ}
    (h1 : p.1 < m.length) (h2 : p.2 < m.length)
    (h3 : p.2 < rowLen m p.1) (h4 : p.1 < rowLen m p.2) :
    ent 0 (hessWrite h x f m p) p.1 p.2 = hessQuot_h h x f p.1 p.2 ∧
    ent 0 (hessWrite h x f m p) p.2 p.1 = hessQuot_h h x f p.1 p.2 := by
  have hsnd : ent 0 (hessWrite h x f m p) p.2 p.1 = hessQuot_h h x f p.1 p.2 := by
    unfold hessWrite
    exact ent_setEnt_self _ _ _ _ _ (by rw [length_setEnt]; exact h2)
      (by rw [rowLen_setEnt]; exact h4)
  refine ⟨?_, hsnd⟩
  by_cases hd : p.1 = p.2
  · rw [hd]
    rw [hd] at hsnd
    exact hsnd
  · unfold hessWrite
    rw [ent_setEnt_ne _ _ _ (by
        intro he
        have e1 : p.1 = p.2 := congrArg Prod.fst he
        exact hd e1)]
    exact ent_setEnt_self _ _ _ _ _ h1 h3

lemma hessFold_untouched (h : ℚ) (x : List ℚ) (f : List ℚ → ℚ)
    (P : List (ℕ × ℕ)) (m : List (List ℚ)) {a b : ℕ}
    (hnc : ∀ p ∈ P, (a, b) ≠ (p.1, p.2) ∧ (a, b) ≠ (p.2, p.1)) :
    ent 0 (P.foldl (hessWrite h x f) m) a b = ent 0 m a b := by
  induction P generalizing m with
  | nil => rfl
  | cons q rest ih =>
      rw [List.foldl_cons, ih _ (fun p hp => hnc p (List.mem_cons_of_mem q hp)),
        ent_hessWrite_ne _ _ _ _ (hnc q (List.mem_cons_self q rest)).1
          (hnc q (List.mem_cons_self q rest)).2]

lemma length_hessFold (h : ℚ) (x : List ℚ) (f : List ℚ → ℚ)
    (P : List (ℕ × ℕ)) (m : List (List ℚ)) :
    (P.foldl (hessWrite h x f) m).length = m.length := by
  induction P generalizing m with
  | nil => rfl
  | cons q rest ih =>
      rw [List.foldl_cons, ih, length_hessWrite]

lemma rowLen_hessFold (h : ℚ) (x : List ℚ) (f : List ℚ → ℚ)
    (P : List (ℕ × ℕ)) (m : List (List ℚ)) (k : ℕ) :
    rowLen (P.foldl (hessWrite h x f) m) k = rowLen m k := by
  induction P generalizing m with
  | nil => rfl
  | cons q rest ih =>
      rw [List.foldl_cons, ih, rowLen_hessWrite]

lemma hessFold_covered (h : ℚ) (x : List ℚ) (f : List ℚ → ℚ)
    (P : List (ℕ × ℕ)) (m : List (List ℚ))
    (hlen : m.length = x.length)
    (hrow : ∀ k, k < m.length → rowLen m k = x.length)
    (hb : ∀ p ∈ P, p.1 < x.length ∧ p.2 < x.length) {a b : ℕ}
    (hcov : ∃ p ∈ P, (a, b) = (p.1, p.2) ∨ (a, b) = (p.2, p.1)) :
    ent 0 (P.foldl (hessWrite h x f) m) a b = hessQuot_h h x f a b := by
  induction P generalizing m with
  | nil =>
      obtain ⟨p, hp, _⟩ := hcov
      cases hp
  | cons q rest ih =>
      rw [List.foldl_cons]
      obtain ⟨hq1, hq2⟩ := hb q (List.mem_cons_self q rest)
      have hlen' : (hessWrite h x f m q).length = x.length := by
        rw [length_hessWrite]; exact hlen
      have hrow' : ∀ k, k < (hessWrite h x f m q).length →
          rowLen (hessWrite h x f m q) k = x.length := by
        intro k hk
        rw [rowLen_hessWrite]
        exact hrow k (by rw [length_hessWrite] at hk; exact hk)
      by_cases hrest : ∃ p ∈ rest, (a, b) = (p.1, p.2) ∨ (a, b) = (p.2, p.1)
      · exact ih _ hlen' hrow'
          (fun p hp => hb p (List.mem_cons_of_mem q hp)) hrest
      · push_neg at hrest
        have hq : (a, b) = (q.1, q.2) ∨ (a, b) = (q.2, q.1) := by
          obtain ⟨p, hp, hcase⟩ := hcov
          rcases List.mem_cons.mp hp with rfl | hp'
          · exact hcase
          · rcases hcase with hcc | hcc
            · exact absurd hcc (hrest p hp').1
            · exact absurd hcc (hrest p hp').2
        have hw := ent_hessWrite_self h x f m (p := q) (by rw [hlen]; exact hq1)
          (by rw [hlen]; exact hq2)
          (by rw [hrow q.1 (by rw [hlen]; exact hq1)]; exact hq2)
          (by rw [hrow q.2 (by rw [hlen]; exact hq2)]; exact hq1)
        have huntouched : ∀ p ∈ rest, (a, b) ≠ (p.1, p.2) ∧ (a, b) ≠ (p.2, p.1) := by
          intro p hp
          have := hrest p hp
          exact ⟨this.1, this.2⟩
        rw [hessFold_untouched h x f rest _ huntouched]
        rcases hq with he | he
        · have e1 : a = q.1 := congrArg Prod.fst he
          have e2 : b = q.2 := congrArg Prod.snd he
          subst e1; subst e2
          exact hw.1
        · have e1 : a = q.2 := congrArg Prod.fst he
          have e2 : b = q.1 := congrArg Prod.snd he
          subst e1; subst e2
          rw [hessQuot_h_symm]
          exact hw.2

/-- C7: `forward_hessian_nograd_sparse` returns an `n × n` matrix holding,
for each listed pair `(a, b)`, the second-order forward quotient at both
`(a, b)` and `(b, a)`, and zero at every entry whose unordered index pair
is not listed. -/
theorem forward_hessian_nograd_sparse_spec (x : List ℚ) (f : List ℚ → ℚ)
    (indices : List (ℕ × ℕ))
    (hb : ∀ p ∈ indices, p.1 < x.length ∧ p.2 < x.length) :
    (∀ p ∈ indices,
        ent 0 (forward_hessian_nograd_sparse x f indices) p.1 p.2
          = hessQuot x f p.1 p.2 ∧
        ent 0 (forward_hessian_nograd_sparse x f indices) p.2 p.1
          = hessQuot x f p.1 p.2) ∧
    (∀ a b, (∀ p ∈ indices, (a, b) ≠ (p.1, p.2) ∧ (a, b) ≠ (p.2, p.1)) →
        ent 0 (forward_hessian_nograd_sparse x f indices) a b = 0) ∧
    (forward_hessian_nograd_sparse x f indices).length = x.length ∧
    (∀ k, k < x.length →
        rowLen (forward_hessian_nograd_sparse x f indices) k = x.length) := by
  have hlen0 : (zeroMat x.length x.length).length = x.length :=
    length_zeroMat _ _
  have hrow0 : ∀ k, k < (zeroMat x.length x.length).length →
      rowLen (zeroMat x.length x.length) k = x.length := by
    intro k hk
    exact rowLen_zeroMat _ _ (by rw [hlen0] at hk; exact hk)
  refine ⟨?_, ?_, ?_, ?_⟩
  · intro p hp
    constructor
    · refine hessFold_covered sqrt_EPS_F64 x f indices _ hlen0 hrow0 hb ?_
      exact ⟨p, hp, Or.inl rfl⟩
    · rw [show hessQuot x f p.1 p.2 = hessQuot_h sqrt_EPS_F64 x f p.2 p.1 from
          hessQuot_h_symm _ _ _ _ _]
      refine hessFold_covered sqrt_EPS_F64 x f indices _ hlen0 hrow0 hb ?_
      exact ⟨p, hp, Or.inr rfl⟩
  · intro a b hnc
    show ent 0 (indices.foldl (hessWrite sqrt_EPS_F64 x f)
        (zeroMat x.length x.length)) a b = 0
    rw [hessFold_untouched sqrt_EPS_F64 x f indices _ hnc]
    exact ent_zeroMat _ _ _ _
  · show (indices.foldl (hessWrite sqrt_EPS_F64 x f)
        (zeroMat x.length x.length)).length = x.length
    rw [length_hessFold]
    exact hlen0
  · intro k hk
    show rowLen (indices.foldl (hessWrite sqrt_EPS_F64 x f)
        (zeroMat x.length x.length)) k = x.length
    rw [rowLen_hessFold]
    exact rowLen_zeroMat _ _ hk

/-- Witness for C7 at a concrete input. -/
theorem forward_hessian_nograd_sparse_spec_witness :
    (∀ p ∈ [((0 : ℕ), (1 : ℕ))],
        p.1 < ([(1 : ℚ), 2] : List ℚ).length ∧
        p.2 < ([(1 : ℚ), 2] : List ℚ).length) ∧
    ((∀ p ∈ [((0 : ℕ), (1 : ℕ))],
        ent 0 (forward_hessian_nograd_sparse [(1 : ℚ), 2]
            (fun v => v.getD 0 0 * v.getD 1 0) [(0, 1)]) p.1 p.2
          = hessQuot [(1 : ℚ), 2] (fun v => v.getD 0 0 * v.getD 1 0) p.1 p.2 ∧
        ent 0 (forward_hessian_nograd_sparse [(1 : ℚ), 2]
            (fun v => v.getD 0 0 * v.getD 1 0) [(0, 1)]) p.2 p.1
          = hessQuot [(1 : ℚ), 2] (fun v => v.getD 0 0 * v.getD 1 0) p.1 p.2) ∧
     (∀ a b, (∀ p ∈ [((0 : ℕ), (1 : ℕ))],
          (a, b) ≠ (p.1, p.2) ∧ (a, b) ≠ (p.2, p.1)) →
        ent 0 (forward_hessian_nograd_sparse [(1 : ℚ), 2]
            (fun v => v.getD 0 0 * v.getD 1 0) [(0, 1)]) a b = 0) ∧
     (forward_hessian_nograd_sparse [(1 : ℚ), 2]
          (fun v => v.getD 0 0 * v.getD 1 0) [(0, 1)]).length
        = ([(1 : ℚ), 2] : List ℚ).length ∧
     (∀ k, k < ([(1 : ℚ), 2] : List ℚ).length →
        rowLen (forward_hessian_nograd_sparse [(1 : ℚ), 2]
            (fun v => v.getD 0 0 * v.getD 1 0) [(0, 1)]) k
          = ([(1 : ℚ), 2] : List ℚ).length)) :=
  ⟨by decide,
    forward_hessian_nograd_sparse_spec [(1 : ℚ), 2]
      (fun v => v.getD 0 0 * v.getD 1 0) [(0, 1)] (by decide)⟩

/-! ### C2: grouped Jacobians match the dense Jacobians -/

lemma foldl_flatMap {α β γ : Type} (f : γ → β → γ) (g : α → List β)
    (l : List α) (init : γ) :
    (l.flatMap g).foldl f init = l.foldl (fun acc a => (g a).foldl f acc) init := by
  induction l generalizing init with
  | nil => rfl
  | cons a l' ih =>
      rw [List.flatMap_cons, List.foldl_append, List.foldl_cons, ih]

/-- The value written while decoding output row `j` of group `g`, forward
mode. -/
def fwdVal (h : ℚ) (x : List ℚ) (fs : List ℚ → List ℚ)
    (g : PerturbationVector) (j : ℕ) : ℚ :=
  ((fs (groupBump h x g)).getD j 0 - (fs x).getD j 0) / h

/-- The value written while decoding output row `j` of group `g`, central
mode. -/
def ctrVal (h : ℚ) (x : List ℚ) (fs : List ℚ → List ℚ)
    (g : PerturbationVector) (j : ℕ) : ℚ :=
  ((fs (groupBump h x g)).getD j 0 - (fs (groupBump (-h) x g)).getD j 0)
    / (2 * h)

lemma forward_jacobian_pert_h_eq_writeFold (h : ℚ) (x : List ℚ)
    (fs : List ℚ → List ℚ) (pert : PerturbationVectors) :
    forward_jacobian_pert_h h x fs pert
      = writeFold (pertWrites (fwdVal h x fs) pert)
          (zeroMat (fs x).length x.length) := by
  unfold forward_jacobian_pert_h writeFold pertWrites
  rw [foldl_flatMap]
  congr 1
  funext J g
  rw [foldl_flatMap]
  show g.pairs.foldl
      (fun J2 q => q.2.foldl
        (fun J3 j => setEnt J3 j q.1
          (((fs (groupBump h x g)).getD j 0 - (fs x).getD j 0) / h)) J2) J
    = g.pairs.foldl
      (fun acc q => (q.2.map (fun j => ((j, q.1), fwdVal h x fs g j))).foldl
        jacWrite acc) J
  congr 1
  funext J2 q
  rw [List.foldl_map]
  rfl

lemma central_jacobian_pert_h_eq_writeFold (h : ℚ) (x : List ℚ)
    (fs : List ℚ → List ℚ) (pert : PerturbationVectors) :
    central_jacobian_pert_h h x fs pert
      = writeFold (pertWrites (ctrVal h x fs) pert)
          (zeroMat (fs x).length x.length) := by
  unfold central_jacobian_pert_h writeFold pertWrites
  rw [foldl_flatMap]
  congr 1
  funext J g
  rw [foldl_flatMap]
  show g.pairs.foldl
      (fun J2 q => q.2.foldl
        (fun J3 j => setEnt J3 j q.1
          (((fs (groupBump h x g)).getD j 0
              - (fs (groupBump (-h) x g)).getD j 0) / (2 * h))) J2) J
    = g.pairs.foldl
      (fun acc q => (q.2.map (fun j => ((j, q.1), ctrVal h x fs g j))).foldl
        jacWrite acc) J
  congr 1
  funext J2 q
  rw [List.foldl_map]
  rfl

lemma length_writeFold (W : List ((ℕ × ℕ) × ℚ)) (m : List (List ℚ)) :
    (writeFold W m).length = m.length := by
  induction W generalizing m with
  | nil => rfl
  | cons w rest ih =>
      show (writeFold rest (jacWrite m w)).length = m.length
      rw [ih]
      exact length_setEnt _ _ _ _

lemma rowLen_writeFold (W : List ((ℕ × ℕ) × ℚ)) (m : List (List ℚ)) (k : ℕ) :
    rowLen (writeFold W m) k = rowLen m k := by
  induction W generalizing m with
  | nil => rfl
  | cons w rest ih =>
      show rowLen (writeFold rest (jacWrite m w)) k = rowLen m k
      rw [ih]
      exact rowLen_setEnt _ _ _ _ _

lemma ent_writeFold_untouched (W : List ((ℕ × ℕ) × ℚ)) (m : List (List ℚ))
    {a b : ℕ} (hnc : ∀ w ∈ W, (a, b) ≠ w.1) :
    ent 0 (writeFold W m) a b = ent 0 m a b := by
  induction W generalizing m with
  | nil => rfl
  | cons w rest ih =>
      show ent 0 (writeFold rest (jacWrite m w)) a b = ent 0 m a b
      rw [ih _ (fun w' hw' => hnc w' (List.mem_cons_of_mem w hw'))]
      exact ent_setEnt_ne _ _ _ (hnc w (List.mem_cons_self w rest))

lemma ent_writeFold_covered (W : List ((ℕ × ℕ) × ℚ)) (m : List (List ℚ))
    {a b : ℕ} (V : ℚ)
    (hval : ∀ w ∈ W, w.1 = (a, b) → w.2 = V)
    (hcov : ∃ w ∈ W, w.1 = (a, b))
    (ha : a < m.length) (hb2 : b < rowLen m a) :
    ent 0 (writeFold W m) a b = V := by
  induction W generalizing m with
  | nil =>
      obtain ⟨w, hw, _⟩ := hcov
      cases hw
  | cons w rest ih =>
      show ent 0 (writeFold rest (jacWrite m w)) a b = V
      have ha' : a < (jacWrite m w).length := by
        show a < (setEnt m w.1.1 w.1.2 w.2).length
        rw [length_setEnt]
        exact ha
      have hb' : b < rowLen (jacWrite m w) a := by
        show b < rowLen (setEnt m w.1.1 w.1.2 w.2) a
        rw [rowLen_setEnt]
        exact hb2
      by_cases hrest : ∃ w' ∈ rest, w'.1 = (a, b)
      · exact ih _ (fun w' hw' => hval w' (List.mem_cons_of_mem w hw')) hrest ha' hb'
      · push_neg at hrest
        have hw1 : w.1 = (a, b) := by
          obtain ⟨w', hw', he⟩ := hcov
          rcases List.mem_cons.mp hw' with rfl | hin
          · exact he
          · exact absurd he (hrest w' hin)
        rw [ent_writeFold_untouched rest _
            (fun w' hw' => fun he => hrest w' hw' (he ▸ rfl))]
        show ent 0 (setEnt m w.1.1 w.1.2 w.2) a b = V
        rw [hw1]
        rw [ent_setEnt_self _ _ _ _ _ ha hb2]
        exact hval w (List.mem_cons_self w rest) hw1

lemma mem_pertWrites (val : PerturbationVector → ℕ → ℚ)
    (pert : PerturbationVectors) (w : (ℕ × ℕ) × ℚ) :
    w ∈ pertWrites val pert ↔
      ∃ g ∈ pert, ∃ q ∈ g.pairs, w.1.2 = q.1 ∧ w.1.1 ∈ q.2 ∧ w.2 = val g w.1.1 := by
  unfold pertWrites
  simp only [List.mem_flatMap, List.mem_map]
  constructor
  · rintro ⟨g, hg, q, hq, j, hj, rfl⟩
    exact ⟨g, hg, q, hq, rfl, hj, rfl⟩
  · rintro ⟨g, hg, q, hq, h1, h2, h3⟩
    refine ⟨g, hg, q, hq, w.1.1, h2, ?_⟩
    obtain ⟨⟨wa, wb⟩, wv⟩ := w
    simp only at h1 h2 h3
    rw [h1, h3]

lemma fs_fold_bump_unaffected (δ : ℚ) (fs : List ℚ → List ℚ) (j : ℕ)
    (l : List (ℕ × List ℕ)) (hun : ∀ q ∈ l, Unaffected fs j q.1) :
    ∀ v, (fs (l.foldl (fun v q => bump δ v q.1) v)).getD j 0
      = (fs v).getD j 0 := by
  induction l with
  | nil => intro v; rfl
  | cons q rest ih =>
      intro v
      rw [List.foldl_cons,
        ih (fun r hr => hun r (List.mem_cons_of_mem q hr)) (bump δ v q.1)]
      exact hun q (List.mem_cons_self q rest) v _

/-- Joint perturbation of a duplicate-free group equals perturbation of a
single member alone, as seen by any output component unaffected by every
other member of the group. -/
lemma fs_groupBump_single (δ : ℚ) (fs : List ℚ → List ℚ) (j i : ℕ)
    (l : List (ℕ × List ℕ)) (hnd : (l.map Prod.fst).Nodup)
    (hmem : ∃ q ∈ l, q.1 = i)
    (hun : ∀ q ∈ l, q.1 ≠ i → Unaffected fs j q.1) :
    ∀ v, (fs (l.foldl (fun v q => bump δ v q.1) v)).getD j 0
      = (fs (bump δ v i)).getD j 0 := by
  induction l with
  | nil =>
      obtain ⟨q, hq, _⟩ := hmem
      cases hq
  | cons q rest ih =>
      intro v
      have hnd2 := hnd
      rw [List.map_cons] at hnd2
      have hq1notin : q.1 ∉ rest.map Prod.fst := (List.nodup_cons.mp hnd2).1
      have hndrest : (rest.map Prod.fst).Nodup := (List.nodup_cons.mp hnd2).2
      rw [List.foldl_cons]
      by_cases hqi : q.1 = i
      · have hrest_un : ∀ r ∈ rest, Unaffected fs j r.1 := by
          intro r hr
          refine hun r (List.mem_cons_of_mem q hr) ?_
          intro he
          rw [← hqi] at he
          exact hq1notin (he ▸ List.mem_map_of_mem Prod.fst hr)
        rw [fs_fold_bump_unaffected δ fs j rest hrest_un (bump δ v q.1), hqi]
      · have hmem' : ∃ r ∈ rest, r.1 = i := by
          obtain ⟨r, hr, hri⟩ := hmem
          rcases List.mem_cons.mp hr with rfl | hr'
          · exact absurd hri hqi
          · exact ⟨r, hr', hri⟩
        rw [ih hndrest hmem'
            (fun r hr hri => hun r (List.mem_cons_of_mem q hr) hri) (bump δ v q.1),
          bump_comm δ v hqi]
        exact hun q (List.mem_cons_self q rest) hqi (bump δ v i) _

lemma length_forward_jacobian_h (h : ℚ) (x : List ℚ) (fs : List ℚ → List ℚ) :
    (forward_jacobian_h h x fs).length = (fs x).length := by
  unfold forward_jacobian_h
  rw [List.length_map, List.length_range]

lemma rowLen_forward_jacobian_h (h : ℚ) (x : List ℚ) (fs : List ℚ → List ℚ)
    {j : ℕ} (hj : j < (fs x).length) :
    rowLen (forward_jacobian_h h x fs) j = x.length := by
  unfold forward_jacobian_h rowLen
  have hrow : ((List.range (fs x).length).map fun j =>
      (List.range x.length).map fun i =>
        ((fs (bump h x i)).getD j 0 - (fs x).getD j 0) / h).getD j []
      = (List.range x.length).map fun i =>
          ((fs (bump h x i)).getD j 0 - (fs x).getD j 0) / h := by
    rw [List.getD_eq_getElem?_getD, List.getElem?_map, List.getElem?_range hj]
    rfl
  rw [hrow, List.length_map, List.length_range]

lemma ent_forward_jacobian_h (h : ℚ) (x : List ℚ) (fs : List ℚ → List ℚ)
    {j i : ℕ} (hj : j < (fs x).length) (hi : i < x.length) :
    ent 0 (forward_jacobian_h h x fs) j i
      = ((fs (bump h x i)).getD j 0 - (fs x).getD j 0) / h := by
  unfold forward_jacobian_h ent
  have hrow : ((List.range (fs x).length).map fun j =>
      (List.range x.length).map fun i =>
        ((fs (bump h x i)).getD j 0 - (fs x).getD j 0) / h).getD j []
      = (List.range x.length).map fun i =>
          ((fs (bump h x i)).getD j 0 - (fs x).getD j 0) / h := by
    rw [List.getD_eq_getElem?_getD, List.getElem?_map, List.getElem?_range hj]
    rfl
  rw [hrow, List.getD_eq_getElem?_getD, List.getElem?_map,
    List.getElem?_range hi]
  rfl

lemma length_central_jacobian_h (h : ℚ) (x : List ℚ) (fs : List ℚ → List ℚ) :
    (central_jacobian_h h x fs).length = (fs x).length := by
  unfold central_jacobian_h
  rw [List.length_map, List.length_range]

lemma rowLen_central_jacobian_h (h : ℚ) (x : List ℚ) (fs : List ℚ → List ℚ)
    {j : ℕ} (hj : j < (fs x).length) :
    rowLen (central_jacobian_h h x fs) j = x.length := by
  unfold central_jacobian_h rowLen
  have hrow : ((List.range (fs x).length).map fun j =>
      (List.range x.length).map fun i =>
        ((fs (bump h x i)).getD j 0 - (fs (bump (-h) x i)).getD j 0) / (2 * h)).getD j []
      = (List.range x.length).map fun i =>
          ((fs (bump h x i)).getD j 0 - (fs (bump (-h) x i)).getD j 0) / (2 * h) := by
    rw [List.getD_eq_getElem?_getD, List.getElem?_map, List.getElem?_range hj]
    rfl
  rw [hrow, List.length_map, List.length_range]

lemma ent_central_jacobian_h (h : ℚ) (x : List ℚ) (fs : List ℚ → List ℚ)
    {j i : ℕ} (hj : j < (fs x).length) (hi : i < x.length) :
    ent 0 (central_jacobian_h h x fs) j i
      = ((fs (bump h x i)).getD j 0 - (fs (bump (-h) x i)).getD j 0) / (2 * h) := by
  unfold central_jacobian_h ent
  have hrow : ((List.range (fs x).length).map fun j =>
      (List.range x.length).map fun i =>
        ((fs (bump h x i)).getD j 0 - (fs (bump (-h) x i)).getD j 0) / (2 * h)).getD j []
      = (List.range x.length).map fun i =>
          ((fs (bump h x i)).getD j 0 - (fs (bump (-h) x i)).getD j 0) / (2 * h) := by
    rw [List.getD_eq_getElem?_getD, List.getElem?_map, List.getElem?_range hj]
    rfl
  rw [hrow, List.getD_eq_getElem?_getD, List.getElem?_map,
    List.getElem?_range hi]
  rfl

/-- C2: for a grouping whose groups have duplicate-free, in-bounds input
indices, whose declared outputs are unaffected by the other inputs
perturbed in the same group (disjoint affected-output sets), and which
covers the full sparsity pattern of `fs`, the grouped forward and central
Jacobians equal the dense forward and central Jacobians. -/
theorem jacobian_pert_matches_dense (x : List ℚ) (fs : List ℚ → List ℚ)
    (pert : PerturbationVectors)
    (hnd : ∀ g ∈ pert, (g.pairs.map Prod.fst).Nodup)
    (hdisj : ∀ g ∈ pert, ∀ q ∈ g.pairs, ∀ j ∈ q.2, ∀ r ∈ g.pairs,
        r.1 ≠ q.1 → Unaffected fs j r.1)
    (hcov : ∀ j i, j < (fs x).length → i < x.length → ¬ Unaffected fs j i →
        ∃ g ∈ pert, ∃ q ∈ g.pairs, q.1 = i ∧ j ∈ q.2) :
    forward_jacobian_pert x fs pert = forward_jacobian x fs ∧
    central_jacobian_pert x fs pert = central_jacobian x fs := by
  have huncov : ∀ a b : ℕ,
      (¬ ∃ g ∈ pert, ∃ q ∈ g.pairs, q.1 = b ∧ a ∈ q.2) →
      ∀ w ∈ pertWrites (fwdVal sqrt_EPS_F64 x fs) pert ++
          pertWrites (ctrVal sqrt_EPS_F64 x fs) pert, (a, b) ≠ w.1 := by
    intro a b hc w hw he
    rcases List.mem_append.mp hw with hw' | hw' <;>
      · rw [mem_pertWrites] at hw'
        obtain ⟨g, hg, q, hq, he2, he1, _⟩ := hw'
        have ha1 : a = w.1.1 := congrArg Prod.fst he
        have hb1 : b = w.1.2 := congrArg Prod.snd he
        exact hc ⟨g, hg, q, hq, by rw [← he2, ← hb1], ha1 ▸ he1⟩
  have keyF : ∀ a b, a < (fs x).length → b < x.length →
      ent 0 (writeFold (pertWrites (fwdVal sqrt_EPS_F64 x fs) pert)
          (zeroMat (fs x).length x.length)) a b
        = ent 0 (forward_jacobian_h sqrt_EPS_F64 x fs) a b := by
    intro a b ha hb
    rw [ent_forward_jacobian_h _ _ _ ha hb]
    by_cases hc : ∃ g ∈ pert, ∃ q ∈ g.pairs, q.1 = b ∧ a ∈ q.2
    · obtain ⟨g0, hg0, q0, hq0, hqb0, hqa0⟩ := hc
      apply ent_writeFold_covered _ _
        (((fs (bump sqrt_EPS_F64 x b)).getD a 0 - (fs x).getD a 0)
          / sqrt_EPS_F64)
      · intro w hw hw1
        rw [mem_pertWrites] at hw
        obtain ⟨g, hg, q, hq, he2, he1, hev⟩ := hw
        have ha1 : w.1.1 = a := congrArg Prod.fst hw1
        have hb1 : w.1.2 = b := congrArg Prod.snd hw1
        have hqb' : q.1 = b := by rw [← he2, hb1]
        have hja : a ∈ q.2 := ha1 ▸ he1
        have hpeel := fs_groupBump_single sqrt_EPS_F64 fs a b g.pairs
          (hnd g hg) ⟨q, hq, hqb'⟩
          (fun r hr hrb => hdisj g hg q hq a hja r hr
            (by rw [hqb']; exact hrb)) x
        rw [hev, ha1]
        unfold fwdVal groupBump
        rw [hpeel]
      · refine ⟨((a, b), fwdVal sqrt_EPS_F64 x fs g0 a), ?_, rfl⟩
        rw [mem_pertWrites]
        exact ⟨g0, hg0, q0, hq0, hqb0.symm, hqa0, rfl⟩
      · rw [length_zeroMat]
        exact ha
      · rw [rowLen_zeroMat _ _ ha]
        exact hb
    · rw [ent_writeFold_untouched _ _
        (fun w hw => huncov a b hc w (List.mem_append.mpr (Or.inl hw))),
        ent_zeroMat]
      have hun : Unaffected fs a b := by
        by_contra hna
        exact hc (hcov a b ha hb hna)
      have h1 : (fs (bump sqrt_EPS_F64 x b)).getD a 0 = (fs x).getD a 0 :=
        hun x _
      rw [h1, sub_self, zero_div]
  have keyC : ∀ a b, a < (fs x).length → b < x.length →
      ent 0 (writeFold (pertWrites (ctrVal sqrt_EPS_F64 x fs) pert)
          (zeroMat (fs x).length x.length)) a b
        = ent 0 (central_jacobian_h sqrt_EPS_F64 x fs) a b := by
    intro a b ha hb
    rw [ent_central_jacobian_h _ _ _ ha hb]
    by_cases hc : ∃ g ∈ pert, ∃ q ∈ g.pairs, q.1 = b ∧ a ∈ q.2
    · obtain ⟨g0, hg0, q0, hq0, hqb0, hqa0⟩ := hc
      apply ent_writeFold_covered _ _
        (((fs (bump sqrt_EPS_F64 x b)).getD a 0
            - (fs (bump (-sqrt_EPS_F64) x b)).getD a 0) / (2 * sqrt_EPS_F64))
      · intro w hw hw1
        rw [mem_pertWrites] at hw
        obtain ⟨g, hg, q, hq, he2, he1, hev⟩ := hw
        have ha1 : w.1.1 = a := congrArg Prod.fst hw1
        have hb1 : w.1.2 = b := congrArg Prod.snd hw1
        have hqb' : q.1 = b := by rw [← he2, hb1]
        have hja : a ∈ q.2 := ha1 ▸ he1
        have hunr : ∀ r ∈ g.pairs, r.1 ≠ b → Unaffected fs a r.1 :=
          fun r hr hrb => hdisj g hg q hq a hja r hr (by rw [hqb']; exact hrb)
        have hpeelP := fs_groupBump_single sqrt_EPS_F64 fs a b g.pairs
          (hnd g hg) ⟨q, hq, hqb'⟩ hunr x
        have hpeelM := fs_groupBump_single (-sqrt_EPS_F64) fs a b g.pairs
          (hnd g hg) ⟨q, hq, hqb'⟩ hunr x
        rw [hev, ha1]
        unfold ctrVal groupBump
        rw [hpeelP, hpeelM]
      · refine ⟨((a, b), ctrVal sqrt_EPS_F64 x fs g0 a), ?_, rfl⟩
        rw [mem_pertWrites]
        exact ⟨g0, hg0, q0, hq0, hqb0.symm, hqa0, rfl⟩
      · rw [length_zeroMat]
        exact ha
      · rw [rowLen_zeroMat _ _ ha]
        exact hb
    · rw [ent_writeFold_untouched _ _
        (fun w hw => huncov a b hc w (List.mem_append.mpr (Or.inr hw))),
        ent_zeroMat]
      have hun : Unaffected fs a b := by
        by_contra hna
        exact hc (hcov a b ha hb hna)
      have h1 : (fs (bump sqrt_EPS_F64 x b)).getD a 0 = (fs x).getD a 0 :=
        hun x _
      have h2 : (fs (bump (-sqrt_EPS_F64) x b)).getD a 0 = (fs x).getD a 0 :=
        hun x _
      rw [h1, h2, sub_self, zero_div]
  constructor
  · unfold forward_jacobian_pert forward_jacobian
    rw [forward_jacobian_pert_h_eq_writeFold]
    apply mat_ext (0 : ℚ)
    · rw [length_writeFold, length_zeroMat, length_forward_jacobian_h]
    · intro i hi
      rw [length_writeFold, length_zeroMat] at hi
      rw [rowLen_writeFold, rowLen_zeroMat _ _ hi,
        rowLen_forward_jacobian_h _ _ _ hi]
    · intro a b ha hb
      rw [length_writeFold, length_zeroMat] at ha
      rw [rowLen_writeFold, rowLen_zeroMat _ _ ha] at hb
      exact keyF a b ha hb
  · unfold central_jacobian_pert central_jacobian
    rw [central_jacobian_pert_h_eq_writeFold]
    apply mat_ext (0 : ℚ)
    · rw [length_writeFold, length_zeroMat, length_central_jacobian_h]
    · intro i hi
      rw [length_writeFold, length_zeroMat] at hi
      rw [rowLen_writeFold, rowLen_zeroMat _ _ hi,
        rowLen_central_jacobian_h _ _ _ hi]
    · intro a b ha hb
      rw [length_writeFold, length_zeroMat] at ha
      rw [rowLen_writeFold, rowLen_zeroMat _ _ ha] at hb
      exact keyC a b ha hb

/-- Witness for C2 at a concrete input: two inputs perturbed together in a
single group, for a function with diagonal sparsity. -/
theorem jacobian_pert_matches_dense_witness :
    (∀ g ∈ [PerturbationVector.mk [(0, [0]), (1, [1])]],
        (g.pairs.map Prod.fst).Nodup) ∧
    (∀ g ∈ [PerturbationVector.mk [(0, [0]), (1, [1])]], ∀ q ∈ g.pairs,
        ∀ j ∈ q.2, ∀ r ∈ g.pairs, r.1 ≠ q.1 →
        Unaffected (fun v => [v.getD 0 0, v.getD 1 0]) j r.1) ∧
    (∀ j i, j < ((fun (v : List ℚ) => [v.getD 0 0, v.getD 1 0]) [(3 : ℚ), 5]).length →
        i < ([(3 : ℚ), 5] : List ℚ).length →
        ¬ Unaffected (fun v => [v.getD 0 0, v.getD 1 0]) j i →
        ∃ g ∈ [PerturbationVector.mk [(0, [0]), (1, [1])]],
          ∃ q ∈ g.pairs, q.1 = i ∧ j ∈ q.2) ∧
    (forward_jacobian_pert [(3 : ℚ), 5] (fun v => [v.getD 0 0, v.getD 1 0])
          [PerturbationVector.mk [(0, [0]), (1, [1])]]
        = forward_jacobian [(3 : ℚ), 5] (fun v => [v.getD 0 0, v.getD 1 0]) ∧
      central_jacobian_pert [(3 : ℚ), 5] (fun v => [v.getD 0 0, v.getD 1 0])
          [PerturbationVector.mk [(0, [0]), (1, [1])]]
        = central_jacobian [(3 : ℚ), 5] (fun v => [v.getD 0 0, v.getD 1 0])) := by
  have hnd : ∀ g ∈ [PerturbationVector.mk [(0, [0]), (1, [1])]],
      (g.pairs.map Prod.fst).Nodup := by
    intro g hg
    rw [List.mem_singleton] at hg
    subst hg
    decide
  have hdisj : ∀ g ∈ [PerturbationVector.mk [(0, [0]), (1, [1])]],
      ∀ q ∈ g.pairs, ∀ j ∈ q.2, ∀ r ∈ g.pairs, r.1 ≠ q.1 →
      Unaffected (fun v => [v.getD 0 0, v.getD 1 0]) j r.1 := by
    intro g hg q hq j hj r hr hne
    rw [List.mem_singleton] at hg
    subst hg
    simp only [List.mem_cons, List.not_mem_nil, or_false] at hq hr
    rcases hq with rfl | rfl <;> rcases hr with rfl | rfl
    · exact absurd rfl hne
    · rw [List.mem_singleton] at hj
      subst hj
      intro v t
      show (v.set 1 t).getD 0 0 = v.getD 0 0
      exact getD_set_ne v t 0 (by decide)
    · rw [List.mem_singleton] at hj
      subst hj
      intro v t
      show (v.set 0 t).getD 1 0 = v.getD 1 0
      exact getD_set_ne v t 0 (by decide)
    · exact absurd rfl hne
  have hcov : ∀ j i,
      j < ((fun (v : List ℚ) => [v.getD 0 0, v.getD 1 0]) [(3 : ℚ), 5]).length →
      i < ([(3 : ℚ), 5] : List ℚ).length →
      ¬ Unaffected (fun v => [v.getD 0 0, v.getD 1 0]) j i →
      ∃ g ∈ [PerturbationVector.mk [(0, [0]), (1, [1])]],
        ∃ q ∈ g.pairs, q.1 = i ∧ j ∈ q.2 := by
    intro j i hj hi hna
    have hj2 : j < 2 := hj
    have hi2 : i < 2 := hi
    interval_cases j <;> interval_cases i
    · exact ⟨PerturbationVector.mk [(0, [0]), (1, [1])], by simp,
        (0, [0]), by simp, rfl, by simp⟩
    · exfalso
      apply hna
      intro v t
      show (v.set 1 t).getD 0 0 = v.getD 0 0
      exact getD_set_ne v t 0 (by decide)
    · exfalso
      apply hna
      intro v t
      show (v.set 0 t).getD 1 0 = v.getD 1 0
      exact getD_set_ne v t 0 (by decide)
    · exact ⟨PerturbationVector.mk [(0, [0]), (1, [1])], by simp,
        (1, [1]), by simp, rfl, by simp⟩
  exact ⟨hnd, hdisj, hcov,
    jacobian_pert_matches_dense [(3 : ℚ), 5]
      (fun v => [v.getD 0 0, v.getD 1 0])
      [PerturbationVector.mk [(0, [0]), (1, [1])]] hnd hdisj hcov⟩

/-- C8: `EPS_F64` is exactly `4.0 * std::f64::EPSILON = 4 * 2^-52`, its
square root (exactly `2^-25`) squares back to it, and every modelled
differencing routine is its step-parametric form instantiated at
`sqrt(EPS_F64)` as the perturbation magnitude. -/
theorem eps_f64_spec :
    EPS_F64 = 4 * F64_EPSILON ∧
    F64_EPSILON = 1 / 2 ^ 52 ∧
    EPS_F64 = 4 * (1 / 2 ^ 52) ∧
    sqrt_EPS_F64 * sqrt_EPS_F64 = EPS_F64 ∧
    forward_diff = forward_diff_h sqrt_EPS_F64 ∧
    forward_jacobian = forward_jacobian_h sqrt_EPS_F64 ∧
    central_jacobian = central_jacobian_h sqrt_EPS_F64 ∧
    forward_jacobian_pert = forward_jacobian_pert_h sqrt_EPS_F64 ∧
    central_jacobian_pert = central_jacobian_pert_h sqrt_EPS_F64 ∧
    forward_hessian_nograd_sparse
      = forward_hessian_nograd_sparse_h sqrt_EPS_F64 ∧
    hessQuot = hessQuot_h sqrt_EPS_F64 :=
  ⟨rfl, rfl, rfl, by norm_num [sqrt_EPS_F64, EPS_F64, F64_EPSILON],
    rfl, rfl, rfl, rfl, rfl, rfl, rfl⟩
